import Mathlib

/-!
A shallow embedding of the mikrofuzz fuzzy-search library (src/index.ts and
src/normalize.ts) together with proofs about its matching and scoring engine.

Modelling conventions:
* JavaScript strings are modelled as `List Char` (with `String` wrappers that
  delegate to the list versions via `String.data`).
* Scores are modelled as exact rationals `ℚ`; the source uses IEEE doubles but
  all score arithmetic in the library is sums of small decimal literals, which
  we treat as exact decimal arithmetic.
* Out-of-bounds string indexing (`s[i]` yielding `undefined` in JS) is modelled
  by `Option Char` with `none` for `undefined`; the boundary set test applied
  to `undefined` is `false`, as in JS.
* `String.prototype.normalize("NFD")` is modelled char-wise by a finite
  decomposition table (`nfdTable`) covering representative precomposed letters;
  characters outside the table decompose to themselves.  `toLowerCase` is
  modelled by a finite table (`lowerTable`) of ASCII, precomposed Latin and
  Greek uppercase letters, together with the context-sensitive Unicode
  `Final_Sigma` rule for `Σ` (`jsLower`), whose context dependence makes
  lowercasing — and hence normalization — not prefix-monotone, as in JS.
* `Array.prototype.sort` with an ascending comparator is modelled by
  `List.insertionSort` with the corresponding `≤` relation (both are stable
  ascending sorts).
-/

namespace Mikrofuzz

/-- An inclusive highlight range `[start, end]` as in src/types.ts; the end
index may be `start - 1` for a degenerate (empty) range, and the sentinel
chunk bounds in the matchers are negative, so both components are integers. -/
abbrev Range := Int × Int

/-- A list of highlight ranges (src/types.ts `HighlightRanges`). -/
abbrev HighlightRanges := List Range

/-- JS-style character access `s[i]`: `none` models `undefined` (negative or
out-of-range index). -/
def charAt (l : List Char) (i : Int) : Option Char :=
  if i < 0 then none else l.get? i.toNat

/-- Whitespace recognized by the model of `String.prototype.trim`. -/
def isWhitespace (c : Char) : Bool :=
  c = ' ' || c = '\t' || c = '\n' || c = '\r'

/-- ASCII lowercase table plus representative precomposed uppercase letters
and Greek capitals; the context-free part of the model of
`String.prototype.toLowerCase` in src/normalize.ts. -/
def lowerTable : List (Char × Char) :=
  [('A', 'a'), ('B', 'b'), ('C', 'c'), ('D', 'd'), ('E', 'e'), ('F', 'f'),
   ('G', 'g'), ('H', 'h'), ('I', 'i'), ('J', 'j'), ('K', 'k'), ('L', 'l'),
   ('M', 'm'), ('N', 'n'), ('O', 'o'), ('P', 'p'), ('Q', 'q'), ('R', 'r'),
   ('S', 's'), ('T', 't'), ('U', 'u'), ('V', 'v'), ('W', 'w'), ('X', 'x'),
   ('Y', 'y'), ('Z', 'z'), ('É', 'é'), ('Ñ', 'ñ'), ('Ü', 'ü'), ('Ł', 'ł'),
   ('Α', 'α'), ('Β', 'β')]

/-- Lowercasing of a single character with no context (every character
except `Σ`, whose lowercase form depends on its neighbours). -/
def jsLowerChar (c : Char) : Char :=
  ((lowerTable.find? (fun p => p.1 = c)).map (fun p => p.2)).getD c

/-- Characters treated as cased by the model of the Unicode `Final_Sigma`
context rule: ASCII letters plus the Greek letters appearing in this
development. -/
def isCasedChar (c : Char) : Bool :=
  c.isAlpha || ['Α', 'Β', 'Σ', 'α', 'β', 'σ', 'ς'].contains c

/-- Whether a (remaining) string starts with a cased character. -/
def nextIsCased : List Char → Bool
  | [] => false
  | d :: _ => isCasedChar d

/-- Model of `String.prototype.toLowerCase` including the context-sensitive
Unicode `Final_Sigma` special casing: `Σ` lowercases to `ς` when it is
preceded by a cased character and not followed by one, and to `σ`
otherwise; every other character lowercases char-wise through `lowerTable`.
(The full Unicode rule additionally skips case-ignorable characters on both
sides, which this model omits.) -/
def jsLowerAux (prevCased : Bool) : List Char → List Char
  | [] => []
  | c :: rest =>
    (if c = 'Σ' then (if prevCased && !nextIsCased rest then 'ς' else 'σ')
     else jsLowerChar c) :: jsLowerAux (isCasedChar c) rest

/-- `toLowerCase` of a whole string (no preceding context at the start). -/
def jsLower (l : List Char) : List Char :=
  jsLowerAux false l

/-- Canonical (NFD) decomposition table for representative precomposed
lowercase letters; char-wise model of `normalize("NFD")`.  Note `ł` has no
canonical decomposition, which is why src/normalize.ts replaces it
explicitly. -/
def nfdTable : List (Char × List Char) :=
  [('é', ['e', Char.ofNat 0x301]),
   ('ü', ['u', Char.ofNat 0x308]),
   ('ñ', ['n', Char.ofNat 0x303])]

/-- Char-wise NFD decomposition (identity off the table). -/
def nfdChar (c : Char) : List Char :=
  ((nfdTable.find? (fun p => p.1 = c)).map (fun p => p.2)).getD [c]

/-- Combining diacritical marks U+0300–U+036F, removed by `diacriticsRegex`
in src/normalize.ts. -/
def isCombiningMark (c : Char) : Bool :=
  0x300 ≤ c.toNat && c.toNat ≤ 0x36F

/-- Global single-character replacement, model of `.replace(/x/g, "y")`. -/
def replaceChar (a b : Char) (c : Char) : Char :=
  if c = a then b else c

/-- Model of `String.prototype.trim`, left part: drop leading whitespace. -/
def trimLeft (l : List Char) : List Char :=
  l.dropWhile isWhitespace

/-- Model of `String.prototype.trim`, right part: drop trailing whitespace. -/
def trimRight (l : List Char) : List Char :=
  (l.reverse.dropWhile isWhitespace).reverse

/-- Model of `String.prototype.trim`. -/
def trimL (l : List Char) : List Char :=
  trimRight (trimLeft l)

/-- The normalization pipeline before the final trim: lowercase, NFD
decomposition, strip combining marks U+0300–U+036F, replace `ł` by `l` and
`ñ` by `n`. -/
def normalizePre (l : List Char) : List Char :=
  ((((jsLower l).flatMap nfdChar).filter
    (fun c => !isCombiningMark c)).map (replaceChar 'ł' 'l')).map (replaceChar 'ñ' 'n')

/-- src/normalize.ts `normalizeText`, on `List Char`: the pipeline above
followed by trim. -/
def normalizeTextL (l : List Char) : List Char :=
  trimL (normalizePre l)

/-- src/normalize.ts `normalizeText` on `String`. -/
def normalizeText (s : String) : String :=
  ⟨normalizeTextL s.data⟩

/-- The word-boundary character set from src/index.ts line 35:
`'  []()-–—\'"""'.split("")` — space (twice), brackets, parens, hyphen,
en dash U+2013, em dash U+2014, straight single quote, straight double quote
(three times); duplicates are irrelevant for membership. -/
def validWordBoundaries : List Char :=
  [' ', ' ', '[', ']', '(', ')', '-', '–', '—', '\'', '"', '"', '"']

/-- src/index.ts `isValidWordBoundary`. -/
def isValidWordBoundary (c : Char) : Bool :=
  validWordBoundaries.contains c

/-- The boundary test as applied at a (possibly out-of-range) string index:
JS `isValidWordBoundary(s[i])` where `s[i]` may be `undefined`; the JS `Set`
does not contain `undefined`, so the test is `false` out of range. -/
def boundaryAt (l : List Char) (i : Int) : Bool :=
  match charAt l i with
  | some c => isValidWordBoundary c
  | none => false

/-- src/index.ts `scoreConsecutiveLetters` (lines 38–54): base score 2, then
for each chunk add 0.2 / 0.4 / 0.8 / 1.6 depending on word alignment.  Note
the source tests `normalizedItem[idx] === " "` — the single space character,
not the `validWordBoundaries` set. -/
def scoreConsecutiveLetters (indices : HighlightRanges) (normalizedItem : List Char) :
    ℚ × HighlightRanges :=
  (indices.foldl (fun score r =>
    let chunkLength : Int := r.2 - r.1 + 1
    let isStartOfWord := r.1 = 0 ∨ charAt normalizedItem (r.1 - 1) = some ' '
    let isEndOfWord := r.2 = (normalizedItem.length : Int) - 1 ∨
      charAt normalizedItem (r.2 + 1) = some ' '
    if isStartOfWord ∧ isEndOfWord then score + 0.2
    else if isStartOfWord then score + 0.4
    else if chunkLength ≥ 3 then score + 0.8
    else score + 1.6) 2, indices)

/-- Model of `String.prototype.indexOf(pattern)` (substring search) on lists;
`some i` is the least index where `pat` occurs, `none` if it does not. -/
def indexOfSubAux (pat : List Char) : List Char → Nat → Option Nat
  | [], i => if pat.isPrefixOf [] then some i else none
  | c :: t, i => if pat.isPrefixOf (c :: t) then some i else indexOfSubAux pat t (i + 1)

/-- `l.indexOf(pat)` returning `-1` when absent, as in JS. -/
def indexOfSubInt (l pat : List Char) : Int :=
  match indexOfSubAux pat l 0 with
  | some n => n
  | none => -1

/-- Model of `String.prototype.indexOf(char, start)` scanning from index
`start.toNat` (JS clamps a negative start position to 0). -/
def indexOfCharAux (c : Char) : List Char → Nat → Option Nat
  | [], _ => none
  | d :: t, i => if d = c then some i else indexOfCharAux c t (i + 1)

/-- `l.indexOf(c, start)`, absolute index result. -/
def indexOfCharFrom (l : List Char) (c : Char) (start : Int) : Option Nat :=
  indexOfCharAux c (l.drop start.toNat) start.toNat

/-- src/index.ts `aggressiveFuzzyMatch` main loop (lines 68–82).  `item` and
`query` are the full strings; the first list argument is the unscanned tail of
`item`, `itemIdx` its absolute position.  The sentinels `chunkFirstIdx = -1`,
`chunkLastIdx = -2` are as in the source. -/
def aggressiveGo (item query : List Char) :
    List Char → Nat → Nat → Int → Int → HighlightRanges → Option (ℚ × HighlightRanges)
  | [], _, _, _, _, _ => none
  | c :: rest, itemIdx, queryIdx, chunkFirstIdx, chunkLastIdx, indices =>
    match query.get? queryIdx with
    | none => none
    | some queryChar =>
      if c = queryChar then
        let p : HighlightRanges × Int :=
          if (itemIdx : Int) ≠ chunkLastIdx + 1 then
            if 0 ≤ chunkFirstIdx then
              (indices ++ [(chunkFirstIdx, chunkLastIdx)], (itemIdx : Int))
            else (indices, (itemIdx : Int))
          else (indices, chunkFirstIdx)
        if queryIdx + 1 = query.length then
          some (scoreConsecutiveLetters (p.1 ++ [(p.2, (itemIdx : Int))]) item)
        else aggressiveGo item query rest (itemIdx + 1) (queryIdx + 1) p.2 (itemIdx : Int) p.1
      else aggressiveGo item query rest (itemIdx + 1) queryIdx chunkFirstIdx chunkLastIdx indices

/-- src/index.ts `aggressiveFuzzyMatch` (lines 56–84). -/
def aggressiveFuzzyMatchL (normalizedItem normalizedQuery : List Char) :
    Option (ℚ × HighlightRanges) :=
  aggressiveGo normalizedItem normalizedQuery normalizedItem 0 0 (-1) (-2) []

/-- Length of the longest common prefix of two lists; models the chunk
extension loop of `smartFuzzyMatch` (lines 116–120), which greedily consumes
matching consecutive characters. -/
def runLen : List Char → List Char → Nat
  | a :: as, b :: bs => if a = b then runLen as bs + 1 else 0
  | _, _ => 0

/-- src/index.ts `smartFuzzyMatch` scan loop (lines 97–128), with explicit
fuel standing in for the unbounded `while (true)`.  The lookahead slices
`query.slice(queryIdx, queryIdx + minChunkLen)` and
`item.slice(idx, idx + minChunkLen)` are written `(·.drop _).take _`, which is
the same list. -/
def smartGo (item query : List Char) :
    Nat → Nat → Int → HighlightRanges → Option (ℚ × HighlightRanges)
  | 0, _, _, _ => none
  | fuel + 1, queryIdx, chunkLastIdx, indices =>
    match query.get? queryIdx with
    | none => none
    | some queryChar =>
      match indexOfCharFrom item queryChar (chunkLastIdx + 1) with
      | none => none
      | some idx =>
        let queryCharsLeft := query.length - queryIdx
        let itemCharsLeft := item.length - idx
        let minChunkLen := min 3 (min queryCharsLeft itemCharsLeft)
        if idx = 0 ∨ boundaryAt item ((idx : Int) - 1) = true ∨
            (query.drop queryIdx).take minChunkLen = (item.drop idx).take minChunkLen then
          let k := runLen (item.drop idx) (query.drop queryIdx)
          let chunkLastIdx' : Int := (idx : Int) + (k : Int) - 1
          let indices' := indices ++ [((idx : Int), chunkLastIdx')]
          if queryIdx + k = query.length then
            some (scoreConsecutiveLetters indices' item)
          else smartGo item query fuel (queryIdx + k) chunkLastIdx' indices'
        else smartGo item query fuel queryIdx (chunkLastIdx + 1) indices

/-- src/index.ts `smartFuzzyMatch` (lines 86–130).  The fuel
`item.length + 2` is sufficient (proved in `smartGo_fuel_irrelevant`). -/
def smartFuzzyMatchL (normalizedItem normalizedQuery : List Char) :
    Option (ℚ × HighlightRanges) :=
  smartGo normalizedItem normalizedQuery (normalizedItem.length + 2) 0 (-2) []

/-- `smartFuzzyMatch` on `String`. -/
def smartFuzzyMatch (normalizedItem normalizedQuery : String) :
    Option (ℚ × HighlightRanges) :=
  smartFuzzyMatchL normalizedItem.data normalizedQuery.data

/-- `aggressiveFuzzyMatch` on `String`. -/
def aggressiveFuzzyMatch (normalizedItem normalizedQuery : String) :
    Option (ℚ × HighlightRanges) :=
  aggressiveFuzzyMatchL normalizedItem.data normalizedQuery.data

/-- src/types.ts `FuzzySearchStrategy`. -/
inductive FuzzySearchStrategy
  | off
  | smart
  | aggressive
deriving DecidableEq, Repr

/-- The ascending-start ordering used by src/index.ts `sortRangeTuple`
(comparator `a[0] - b[0]`). -/
def sortRangeTuple (a b : Range) : Prop := a.1 ≤ b.1

instance : DecidableRel sortRangeTuple :=
  fun a b => inferInstanceAs (Decidable (a.1 ≤ b.1))

/-- src/index.ts `matchesFuzzily` (lines 132–177): the tiered orchestrator.
Arguments follow the source: original item, normalized item, the item's word
set (modelled as the token list, membership only), original query, normalized
query, query words, and the strategy. -/
def matchesFuzzilyL (item normalizedItem : List Char) (itemWords : List (List Char))
    (query normalizedQuery : List Char) (queryWords : List (List Char))
    (strategy : FuzzySearchStrategy) : Option (ℚ × HighlightRanges) :=
  if item = query then some (0, [(0, (item.length : Int) - 1)])
  else
    let queryLen : Int := query.length
    let normalizedItemLen : Int := normalizedItem.length
    let normalizedQueryLen : Int := normalizedQuery.length
    if normalizedItem = normalizedQuery then some (0.1, [(0, normalizedItemLen - 1)])
    else if normalizedQuery.isPrefixOf normalizedItem then
      some (0.5, [(0, normalizedQueryLen - 1)])
    else
      let exactContainsIdx : Int := indexOfSubInt item query
      if exactContainsIdx > -1 ∧ boundaryAt item (exactContainsIdx - 1) = true then
        some (0.9, [(exactContainsIdx, exactContainsIdx + queryLen - 1)])
      else
        let containsIdx : Int := indexOfSubInt normalizedItem normalizedQuery
        if containsIdx > -1 ∧ boundaryAt normalizedItem (containsIdx - 1) = true then
          some (1, [(containsIdx, containsIdx + queryLen - 1)])
        else if 1 < queryWords.length ∧ queryWords.all (fun w => itemWords.contains w) then
          some (1.5 + (queryWords.length : ℚ) * 0.2,
            List.insertionSort sortRangeTuple (queryWords.map (fun w =>
              let i := indexOfSubInt normalizedItem w
              (i, i + (w.length : Int) - 1))))
        else if containsIdx > -1 then some (2, [(containsIdx, containsIdx + queryLen - 1)])
        else
          match strategy with
          | .aggressive => aggressiveFuzzyMatchL normalizedItem normalizedQuery
          | .smart => smartFuzzyMatchL normalizedItem normalizedQuery
          | .off => none

/-- src/types.ts `FuzzyResult`: one item, its best score, and per-field
ranges (null for a non-matching field). -/
structure FuzzyResult (T : Type) where
  item : T
  score : ℚ
  «matches» : List (Option HighlightRanges)
deriving DecidableEq, Repr

/-- src/index.ts `fuzzyMatch` (lines 183–203): one-off smart-strategy match
of a single string. -/
def fuzzyMatch (text query : String) : Option (FuzzyResult String) :=
  let normalizedQuery := normalizeTextL query.data
  let queryWords := normalizedQuery.splitOn ' '
  let normalizedText := normalizeTextL text.data
  let itemWords := normalizedText.splitOn ' '
  match matchesFuzzilyL text.data normalizedText itemWords query.data normalizedQuery
      queryWords .smart with
  | some r => some ⟨text, r.1, [some r.2]⟩
  | none => none

/-- `Number.MAX_SAFE_INTEGER`, the initial best score in `createFuzzySearch`. -/
def maxSafeInteger : ℚ := 2 ^ 53 - 1

/-- The ascending-score ordering used by src/index.ts `sortByScore`
(comparator `a.score - b.score`). -/
def sortByScore {T : Type} (a b : FuzzyResult T) : Prop := a.score ≤ b.score

instance {T : Type} : DecidableRel (@sortByScore T) :=
  fun a b => inferInstanceAs (Decidable (a.score ≤ b.score))

/-- src/index.ts `createFuzzySearch` (lines 224–282), with the caller-supplied
field extraction already resolved to a function `getTexts` returning the list
of nullable text fields (the source's `getText` option; `key` lookup and the
identity default are wrappers constructing such a function).  A `none` field
is coerced to the empty string (`text || ""`). -/
def createFuzzySearchL {T : Type} (collection : List T)
    (getTexts : T → List (Option String)) (strategy : FuzzySearchStrategy) :
    String → List (FuzzyResult T) :=
  let preprocessed := collection.map (fun element =>
    ((getTexts element).map (fun text =>
      let item := ((text.getD "")).data
      (item, normalizeTextL item, (normalizeTextL item).splitOn ' ')), element))
  fun query =>
    let normalizedQuery := normalizeTextL query.data
    let queryWords := normalizedQuery.splitOn ' '
    if normalizedQuery.length = 0 then []
    else
      let results := preprocessed.filterMap (fun ep =>
        let scored := ep.1.map (fun t =>
          matchesFuzzilyL t.1 t.2.1 t.2.2 query.data normalizedQuery queryWords strategy)
        let bestScore := scored.foldl (fun b r =>
          match r with
          | some x => min b x.1
          | none => b) maxSafeInteger
        if bestScore < maxSafeInteger then
          some ⟨ep.2, bestScore, scored.map (fun r => r.map (fun x => x.2))⟩
        else none)
      List.insertionSort sortByScore results

/-- `createFuzzySearch` over a collection of plain strings: neither `key` nor
`getText` is supplied, so each item is its own single text field. -/
def createFuzzySearch (collection : List String) (strategy : FuzzySearchStrategy) :
    String → List (FuzzyResult String) :=
  createFuzzySearchL collection (fun s => [some s]) strategy

/-- The per-chunk penalty of the consecutive-run scorer, written as a
standalone function of one chunk; follows the source's boundary test (the
single space character, plus index 0 / end of string). -/
def chunkScoreSpaceBoundary (normalizedItem : List Char) (r : Range) : ℚ :=
  let chunkLength : Int := r.2 - r.1 + 1
  let isStartOfWord := r.1 = 0 ∨ charAt normalizedItem (r.1 - 1) = some ' '
  let isEndOfWord := r.2 = (normalizedItem.length : Int) - 1 ∨
    charAt normalizedItem (r.2 + 1) = some ' '
  if isStartOfWord ∧ isEndOfWord then 0.2
  else if isStartOfWord then 0.4
  else if chunkLength ≥ 3 then 0.8
  else 1.6

/-- Modelled from the claim's words (C2): the per-chunk penalty with the
boundary test taken to be the full §4.2 `validWordBoundaries` set rather than
the space character.  Used only to compare against the source's scorer. -/
def chunkScoreSetBoundary (normalizedItem : List Char) (r : Range) : ℚ :=
  let chunkLength : Int := r.2 - r.1 + 1
  let isStartOfWord := r.1 = 0 ∨ boundaryAt normalizedItem (r.1 - 1) = true
  let isEndOfWord := r.2 = (normalizedItem.length : Int) - 1 ∨
    boundaryAt normalizedItem (r.2 + 1) = true
  if isStartOfWord ∧ isEndOfWord then 0.2
  else if isStartOfWord then 0.4
  else if chunkLength ≥ 3 then 0.8
  else 1.6

/-- A character is a fixpoint of every stage of the normalization pipeline:
already lowercase (and not the context-sensitively cased `Σ`), no canonical
decomposition, not a combining mark, and not one of the explicitly replaced
letters. -/
def goodChar (c : Char) : Prop :=
  jsLowerChar c = c ∧ c ≠ 'Σ' ∧ nfdChar c = [c] ∧ isCombiningMark c = false ∧
    c ≠ 'ł' ∧ c ≠ 'ñ'

instance : DecidablePred goodChar := fun c => by
  unfold goodChar
  infer_instance

end Mikrofuzz

/-! ## Theorems -/

namespace Mikrofuzz

/-- Folding `+ f r` over a list starting at `a` is `a` plus the sum of `f`. -/
theorem foldl_add_map_sum (f : Range → ℚ) :
    ∀ (l : List Range) (a : ℚ), l.foldl (fun s r => s + f r) a = a + (l.map f).sum := by
  intro l
  induction l with
  | nil => intro a; simp
  | cons hd tl ih =>
    intro a
    simp only [List.foldl_cons, List.map_cons, List.sum_cons, ih]
    ring

/-- The scorer's fold, rewritten as base 2 plus a sum of per-chunk
penalties. -/
theorem scoreConsecutiveLetters_eq (indices : HighlightRanges)
    (normalizedItem : List Char) :
    scoreConsecutiveLetters indices normalizedItem =
      (2 + (indices.map (chunkScoreSpaceBoundary normalizedItem)).sum, indices) := by
  unfold scoreConsecutiveLetters
  refine Prod.ext ?_ rfl
  show indices.foldl _ 2 = _
  have hbody : (fun (score : ℚ) (r : Range) =>
      let chunkLength : Int := r.2 - r.1 + 1
      let isStartOfWord := r.1 = 0 ∨ charAt normalizedItem (r.1 - 1) = some ' '
      let isEndOfWord := r.2 = (normalizedItem.length : Int) - 1 ∨
        charAt normalizedItem (r.2 + 1) = some ' '
      if isStartOfWord ∧ isEndOfWord then score + 0.2
      else if isStartOfWord then score + 0.4
      else if chunkLength ≥ 3 then score + 0.8
      else score + 1.6) = fun score r => score + chunkScoreSpaceBoundary normalizedItem r := by
    funext score r
    simp only [chunkScoreSpaceBoundary]
    split_ifs <;> rfl
  rw [hbody, foldl_add_map_sum]

/-- The scorer echoes the chunk list unchanged. -/
theorem scoreConsecutiveLetters_snd (l : HighlightRanges) (i : List Char) :
    (scoreConsecutiveLetters l i).2 = l := rfl

/-- C2 (amended): the consecutive-run scorer returns 2 plus, per chunk, the
penalty 0.2 / 0.4 / 0.8 / 1.6 determined by start/end alignment — where the
alignment test uses the single space character (plus index 0 and end of
string), not the full §4.2 boundary set — and echoes the chunk list. -/
theorem C2_scoreConsecutiveLetters_space_boundary (indices : HighlightRanges)
    (normalizedItem : List Char) :
    scoreConsecutiveLetters indices normalizedItem =
      (2 + (indices.map (chunkScoreSpaceBoundary normalizedItem)).sum, indices) :=
  scoreConsecutiveLetters_eq indices normalizedItem

/-- C2 (counterexample): on the chunk list `[(2,4)]` against `"a-bcd"` the
source scorer yields 2.8 (the chunk follows a hyphen, which the scorer does
not treat as a word start), while the claimed formula — boundary test = the
full §4.2 set, which contains the hyphen — yields 2.2. -/
theorem C2_counterexample :
    (scoreConsecutiveLetters [((2 : Int), (4 : Int))] ("a-bcd".data)).1 = 2.8 ∧
      2 + ([((2 : Int), (4 : Int))].map (chunkScoreSetBoundary ("a-bcd".data))).sum = 2.2 ∧
      (2.8 : ℚ) ≠ 2.2 := by
  refine ⟨?_, ?_, by norm_num⟩
  · rw [scoreConsecutiveLetters_eq]
    simp only [List.map_cons, List.map_nil, List.sum_cons, List.sum_nil]
    have h1 : chunkScoreSpaceBoundary ("a-bcd".data) ((2 : Int), (4 : Int)) = 0.8 := by
      simp only [chunkScoreSpaceBoundary]
      rw [if_neg (by decide), if_neg (by decide), if_pos (by decide)]
    rw [h1]
    norm_num
  · have h2 : chunkScoreSetBoundary ("a-bcd".data) ((2 : Int), (4 : Int)) = 0.2 := by
      simp only [chunkScoreSetBoundary]
      rw [if_pos (by decide)]
    simp only [List.map_cons, List.map_nil, List.sum_cons, List.sum_nil, h2]
    norm_num

/-- C6: searching the one-item collection `["Hello World"]` with the
aggressive strategy for `"hwl"` returns exactly one result with item
`"Hello World"`, score 4.4, and highlight chunks `[(0,0), (6,6), (9,9)]`
(three single-character chunks scored 2 + 0.4 + 0.4 + 1.6). -/
theorem C6_hello_world_aggressive :
    createFuzzySearch ["Hello World"] .aggressive "hwl" =
      [⟨"Hello World", 4.4, [some [((0 : Int), (0 : Int)), (6, 6), (9, 9)]]⟩] := by
  have h0 : normalizeTextL ['H','e','l','l','o',' ','W','o','r','l','d'] =
      ['h','e','l','l','o',' ','w','o','r','l','d'] := by decide
  have hq : normalizeTextL ['h','w','l'] = ['h','w','l'] := by decide
  have hm : matchesFuzzilyL ['H','e','l','l','o',' ','W','o','r','l','d']
      ['h','e','l','l','o',' ','w','o','r','l','d']
      (List.splitOn ' ' ['h','e','l','l','o',' ','w','o','r','l','d'])
      ['h','w','l'] ['h','w','l'] (List.splitOn ' ' ['h','w','l']) .aggressive =
      some (scoreConsecutiveLetters [((0 : Int), (0 : Int)), (6, 6), (9, 9)]
        ['h','e','l','l','o',' ','w','o','r','l','d']) := rfl
  have hs : (scoreConsecutiveLetters [((0 : Int), (0 : Int)), (6, 6), (9, 9)]
      ['h','e','l','l','o',' ','w','o','r','l','d']).1 = 4.4 := by
    rw [scoreConsecutiveLetters_eq]
    simp only [List.map_cons, List.map_nil, List.sum_cons, List.sum_nil]
    have h1 : chunkScoreSpaceBoundary ['h','e','l','l','o',' ','w','o','r','l','d']
        ((0 : Int), (0 : Int)) = 0.4 := by
      simp only [chunkScoreSpaceBoundary]
      rw [if_neg (by decide), if_pos (by decide)]
    have h2 : chunkScoreSpaceBoundary ['h','e','l','l','o',' ','w','o','r','l','d']
        ((6 : Int), (6 : Int)) = 0.4 := by
      simp only [chunkScoreSpaceBoundary]
      rw [if_neg (by decide), if_pos (by decide)]
    have h3 : chunkScoreSpaceBoundary ['h','e','l','l','o',' ','w','o','r','l','d']
        ((9 : Int), (9 : Int)) = 1.6 := by
      simp only [chunkScoreSpaceBoundary]
      rw [if_neg (by decide), if_neg (by decide), if_neg (by decide)]
    rw [h1, h2, h3]
    norm_num
  simp only [createFuzzySearch, createFuzzySearchL, List.map_cons, List.map_nil,
    Option.getD_some]
  rw [if_neg (by decide)]
  simp only [List.filterMap_cons, List.filterMap_nil, List.map_cons, List.map_nil, h0, hq, hm,
    List.foldl_cons, List.foldl_nil, scoreConsecutiveLetters_snd, hs]
  have hmin : maxSafeInteger ⊓ (4.4 : ℚ) = 4.4 := by
    rw [min_eq_right]
    norm_num [maxSafeInteger]
  rw [hmin, if_pos (by norm_num [maxSafeInteger])]
  simp [List.insertionSort, scoreConsecutiveLetters_snd]

/-- C7: for every collection, field extraction, strategy and query, the
result list of the collection search function is non-decreasing in score from
the first element to the last (`List.Sorted sortByScore` is pairwise
`score ≤ score` in list order). -/
theorem C7_results_sorted_by_score {T : Type} (collection : List T)
    (getTexts : T → List (Option String)) (strategy : FuzzySearchStrategy) (query : String) :
    List.Sorted sortByScore (createFuzzySearchL collection getTexts strategy query) := by
  haveI h1 : IsTotal (FuzzyResult T) sortByScore := ⟨fun a b => le_total a.score b.score⟩
  haveI h2 : IsTrans (FuzzyResult T) sortByScore := ⟨fun a b c hab hbc => le_trans hab hbc⟩
  simp only [createFuzzySearchL]
  split
  · exact List.sorted_nil
  · exact List.sorted_insertionSort _ _

/-- With an empty (normalized) query, the orchestrator always stops in one of
the first three tiers, in each case with the degenerate range `[0, -1]`. -/
theorem matchesFuzzily_empty_query (item nItem : List Char) (iw qw : List (List Char))
    (strat : FuzzySearchStrategy) :
    matchesFuzzilyL item nItem iw [] [] qw strat =
      if item = [] then some (0, [((0 : Int), -1)])
      else if nItem = [] then some (0.1, [((0 : Int), -1)])
      else some (0.5, [((0 : Int), -1)]) := by
  unfold matchesFuzzilyL
  by_cases h1 : item = ([] : List Char)
  · simp [h1]
  · by_cases h2 : nItem = ([] : List Char)
    · simp [h1, h2]
    · simp [h1, h2, List.isPrefixOf]

/-- C9: the one-off entry point `fuzzyMatch(text, "")` returns a non-null
result whose matches are `[[[0, -1]]]` (one degenerate range whose end
precedes its start), and whenever the normalized text is non-empty and the
text itself is not the empty string, the score is 0.5 (the empty query is a
prefix of everything). -/
theorem C9_fuzzyMatch_empty_query (text : String) :
    ∃ r, fuzzyMatch text "" = some r ∧ r.matches = [some [((0 : Int), -1)]] ∧
      (normalizeTextL text.data ≠ [] → text ≠ "" → r.score = 0.5) := by
  have hq : normalizeTextL ("".data) = [] := rfl
  simp only [fuzzyMatch, hq]
  rw [matchesFuzzily_empty_query]
  by_cases h1 : text.data = []
  · have ht : text = "" := by
      cases text
      simp at h1
      simp [h1]
    simp only [h1, if_pos rfl]
    exact ⟨_, rfl, rfl, fun _ h => absurd ht h⟩
  · by_cases h2 : normalizeTextL text.data = []
    · simp only [if_neg h1, if_pos h2]
      exact ⟨_, rfl, rfl, fun h _ => absurd h2 h⟩
    · simp only [if_neg h1, if_neg h2]
      exact ⟨_, rfl, rfl, fun _ _ => rfl⟩

/-- C9 (witness): at `text = "Hello"` the empty-query result exists, has
matches `[[[0, -1]]]` and score 0.5. -/
theorem C9_witness :
    ∃ r, fuzzyMatch "Hello" "" = some r ∧ r.score = 0.5 ∧
      r.matches = [some [((0 : Int), -1)]] := by
  obtain ⟨r, hr1, hr2, hr3⟩ := C9_fuzzyMatch_empty_query "Hello"
  exact ⟨r, hr1, hr3 (by decide) (by decide), hr2⟩

theorem dropWhile_dropWhile (p : Char → Bool) (l : List Char) :
    (l.dropWhile p).dropWhile p = l.dropWhile p := by
  induction l with
  | nil => rfl
  | cons c t ih =>
    by_cases h : p c = true
    · simp [List.dropWhile_cons, h, ih]
    · simp [List.dropWhile_cons, h]

theorem trimRight_decomp (l : List Char) : ∃ s, l = trimRight l ++ s := by
  refine ⟨(l.reverse.takeWhile isWhitespace).reverse, ?_⟩
  unfold trimRight
  calc l = l.reverse.reverse := by rw [List.reverse_reverse]
  _ = ((l.reverse.takeWhile isWhitespace) ++ (l.reverse.dropWhile isWhitespace)).reverse := by
        rw [List.takeWhile_append_dropWhile]
  _ = _ := by rw [List.reverse_append]

theorem trimRight_trimRight (l : List Char) : trimRight (trimRight l) = trimRight l := by
  unfold trimRight
  rw [List.reverse_reverse, dropWhile_dropWhile]

theorem head_not_ws_of_dropWhile_fix {c : Char} {t : List Char}
    (h : (c :: t).dropWhile isWhitespace = c :: t) : isWhitespace c = false := by
  by_contra hc
  rw [Bool.not_eq_false] at hc
  rw [List.dropWhile_cons, if_pos hc] at h
  have h1 : (t.dropWhile isWhitespace).length ≤ t.length :=
    (List.dropWhile_sublist isWhitespace).length_le
  rw [h] at h1
  simp at h1

theorem trimLeft_trimRight_of_fix {x : List Char} (h : trimLeft x = x) :
    trimLeft (trimRight x) = trimRight x := by
  obtain ⟨s, hs⟩ := trimRight_decomp x
  cases htr : trimRight x with
  | nil => rfl
  | cons c t =>
    have hx : x = c :: (t ++ s) := by
      rw [hs, htr]
      simp
    have hc : isWhitespace c = false := by
      apply head_not_ws_of_dropWhile_fix (t := t ++ s)
      rw [← hx]
      exact h
    show (c :: t).dropWhile isWhitespace = c :: t
    rw [List.dropWhile_cons, if_neg (by simp [hc])]

theorem trimL_idem (l : List Char) : trimL (trimL l) = trimL l := by
  unfold trimL
  have hx : trimLeft (trimLeft l) = trimLeft l := dropWhile_dropWhile _ _
  rw [trimLeft_trimRight_of_fix hx, trimRight_trimRight]

theorem lowerTable_outputs_fixed :
    ∀ p ∈ lowerTable, lowerTable.find? (fun q => q.1 = p.2) = none := by
  decide

theorem jsLowerChar_idem (c : Char) : jsLowerChar (jsLowerChar c) = jsLowerChar c := by
  cases h : lowerTable.find? (fun p => p.1 = c) with
  | none =>
    have h1 : jsLowerChar c = c := by
      unfold jsLowerChar
      rw [h]
      rfl
    rw [h1, h1]
  | some p =>
    have h1 : jsLowerChar c = p.2 := by
      unfold jsLowerChar
      rw [h]
      rfl
    have hp : p ∈ lowerTable := List.mem_of_find?_eq_some h
    have h2 := lowerTable_outputs_fixed p hp
    rw [h1]
    unfold jsLowerChar
    rw [h2]
    rfl

theorem jsLowerChar_ne_sigma {c : Char} (hc : c ≠ 'Σ') : jsLowerChar c ≠ 'Σ' := by
  cases h : lowerTable.find? (fun p => p.1 = c) with
  | none =>
    have h1 : jsLowerChar c = c := by
      unfold jsLowerChar
      rw [h]
      rfl
    rw [h1]
    exact hc
  | some p =>
    have h1 : jsLowerChar c = p.2 := by
      unfold jsLowerChar
      rw [h]
      rfl
    have hp : p ∈ lowerTable := List.mem_of_find?_eq_some h
    have hall : ∀ q ∈ lowerTable, q.2 ≠ 'Σ' := by decide
    rw [h1]
    exact hall p hp

/-- Every character produced by the lowercasing stage is a final sigma, a
small sigma, or the context-free lowercase form of a non-`Σ` character. -/
theorem mem_jsLowerAux {x : Char} :
    ∀ (l : List Char) (b : Bool), x ∈ jsLowerAux b l →
      x = 'ς' ∨ x = 'σ' ∨ ∃ c, c ≠ 'Σ' ∧ x = jsLowerChar c := by
  intro l
  induction l with
  | nil =>
    intro b h
    simp [jsLowerAux] at h
  | cons c rest ih =>
    intro b h
    simp only [jsLowerAux] at h
    rcases List.mem_cons.mp h with h1 | h2
    · by_cases hc : c = 'Σ'
      · rw [if_pos hc] at h1
        by_cases hb : (b && !nextIsCased rest) = true
        · rw [if_pos hb] at h1
          exact Or.inl h1
        · rw [if_neg hb] at h1
          exact Or.inr (Or.inl h1)
      · rw [if_neg hc] at h1
        exact Or.inr (Or.inr ⟨c, hc, h1⟩)
    · exact ih _ h2

/-- On a string of lowercase-fixed, non-`Σ` characters the lowercasing stage
is the identity, whatever the incoming context flag. -/
theorem jsLowerAux_eq_self :
    ∀ (l : List Char), (∀ c ∈ l, jsLowerChar c = c ∧ c ≠ 'Σ') →
      ∀ b, jsLowerAux b l = l := by
  intro l
  induction l with
  | nil =>
    intro _ b
    rfl
  | cons c rest ih =>
    intro h b
    obtain ⟨h1, h2⟩ := h c (by simp)
    show (if c = 'Σ' then _ else jsLowerChar c) :: jsLowerAux (isCasedChar c) rest = c :: rest
    rw [if_neg h2, h1, ih (fun d hd => h d (by simp [hd])) (isCasedChar c)]

theorem nfdTable_outputs :
    ∀ p ∈ nfdTable, ∀ d ∈ p.2, isCombiningMark d = true ∨
      goodChar (replaceChar 'ñ' 'n' (replaceChar 'ł' 'l' d)) := by
  decide

theorem goodChar_of_pipeline {e d : Char}
    (he : e = 'ς' ∨ e = 'σ' ∨ ∃ c, c ≠ 'Σ' ∧ e = jsLowerChar c)
    (hd : d ∈ nfdChar e) (hcomb : isCombiningMark d = false) :
    goodChar (replaceChar 'ñ' 'n' (replaceChar 'ł' 'l' d)) := by
  rcases he with rfl | rfl | ⟨c, hcs, rfl⟩
  · have hde : d = 'ς' := by
      have hn : nfdChar 'ς' = ['ς'] := by decide
      rw [hn] at hd
      simpa using hd
    subst hde
    decide
  · have hde : d = 'σ' := by
      have hn : nfdChar 'σ' = ['σ'] := by decide
      rw [hn] at hd
      simpa using hd
    subst hde
    decide
  · cases h : nfdTable.find? (fun p => p.1 = jsLowerChar c) with
    | some p =>
      have hd2 : d ∈ p.2 := by
        unfold nfdChar at hd
        rw [h] at hd
        exact hd
      have hp := List.mem_of_find?_eq_some h
      rcases nfdTable_outputs p hp d hd2 with hcm | hgood
      · rw [hcomb] at hcm
        exact absurd hcm (by simp)
      · exact hgood
    | none =>
      have hnfd : nfdChar (jsLowerChar c) = [jsLowerChar c] := by
        unfold nfdChar
        rw [h]
        rfl
      have hde : d = jsLowerChar c := by
        rw [hnfd] at hd
        simpa using hd
      rw [← hde] at hnfd
      have hlow : jsLowerChar d = d := by
        rw [hde]
        exact jsLowerChar_idem c
      have hsig : d ≠ 'Σ' := by
        rw [hde]
        exact jsLowerChar_ne_sigma hcs
      by_cases he1 : d = 'ł'
      · rw [he1]
        decide
      · by_cases he2 : d = 'ñ'
        · rw [he2]
          decide
        · have hrl : replaceChar 'ł' 'l' d = d := by
            unfold replaceChar
            rw [if_neg he1]
          have hrn : replaceChar 'ñ' 'n' d = d := by
            unfold replaceChar
            rw [if_neg he2]
          rw [hrl, hrn]
          exact ⟨hlow, hsig, hnfd, hcomb, he1, he2⟩

theorem mem_trimL {c : Char} {l : List Char} (h : c ∈ trimL l) : c ∈ l := by
  unfold trimL trimRight trimLeft at h
  rw [List.mem_reverse] at h
  have h1 := (List.dropWhile_sublist isWhitespace).subset h
  rw [List.mem_reverse] at h1
  exact (List.dropWhile_sublist isWhitespace).subset h1

theorem mem_normalizeTextL_good {x : Char} {l : List Char} (h : x ∈ normalizeTextL l) :
    goodChar x := by
  unfold normalizeTextL at h
  have h1 : x ∈ normalizePre l := mem_trimL h
  unfold normalizePre jsLower at h1
  simp only [List.mem_map, List.mem_filter, List.mem_flatMap] at h1
  obtain ⟨y, ⟨z, ⟨⟨e, he, hz⟩, hcomb⟩, rfl⟩, rfl⟩ := h1
  exact goodChar_of_pipeline (mem_jsLowerAux l false he) hz (by simpa using hcomb)

theorem map_id_of_mem {f : Char → Char} :
    ∀ {l : List Char}, (∀ c ∈ l, f c = c) → l.map f = l := by
  intro l
  induction l with
  | nil => intro _; rfl
  | cons c t ih =>
    intro h
    simp only [List.map_cons]
    rw [h c (by simp), ih (fun d hd => h d (by simp [hd]))]

theorem flatMap_id_of_mem {g : Char → List Char} :
    ∀ {l : List Char}, (∀ c ∈ l, g c = [c]) → l.flatMap g = l := by
  intro l
  induction l with
  | nil => intro _; rfl
  | cons c t ih =>
    intro h
    simp only [List.flatMap_cons]
    rw [h c (by simp), ih (fun d hd => h d (by simp [hd]))]
    rfl

theorem filter_id_of_mem {p : Char → Bool} :
    ∀ {l : List Char}, (∀ c ∈ l, p c = true) → l.filter p = l := by
  intro l
  induction l with
  | nil => intro _; rfl
  | cons c t ih =>
    intro h
    rw [List.filter_cons, if_pos (h c (by simp)), ih (fun d hd => h d (by simp [hd]))]

theorem normalizePre_eq_self {l : List Char} (h : ∀ c ∈ l, goodChar c) :
    normalizePre l = l := by
  unfold normalizePre jsLower
  have s1 : jsLowerAux false l = l :=
    jsLowerAux_eq_self l (fun c hc => ⟨(h c hc).1, (h c hc).2.1⟩) false
  rw [s1]
  have s2 : l.flatMap nfdChar = l := flatMap_id_of_mem (fun c hc => (h c hc).2.2.1)
  rw [s2]
  have s3 : l.filter (fun c => !isCombiningMark c) = l :=
    filter_id_of_mem (fun c hc => by rw [(h c hc).2.2.2.1]; rfl)
  rw [s3]
  have s4 : l.map (replaceChar 'ł' 'l') = l :=
    map_id_of_mem (fun c hc => by unfold replaceChar; rw [if_neg (h c hc).2.2.2.2.1])
  rw [s4]
  have s5 : l.map (replaceChar 'ñ' 'n') = l :=
    map_id_of_mem (fun c hc => by unfold replaceChar; rw [if_neg (h c hc).2.2.2.2.2])
  rw [s5]

theorem normalizeTextL_idem (l : List Char) :
    normalizeTextL (normalizeTextL l) = normalizeTextL l := by
  have hg : ∀ c ∈ normalizeTextL l, goodChar c := fun c hc => mem_normalizeTextL_good hc
  show trimL (normalizePre (normalizeTextL l)) = normalizeTextL l
  rw [normalizePre_eq_self hg]
  show trimL (trimL (normalizePre l)) = trimL (normalizePre l)
  exact trimL_idem _

/-- C8: the text normalizer is idempotent: `normalize(normalize(s)) =
normalize(s)` for every string `s`. -/
theorem C8_normalizeText_idempotent (s : String) : normalizeText (normalizeText s) = normalizeText s := by
  unfold normalizeText
  exact congrArg String.mk (normalizeTextL_idem s.data)

/-- C5: whenever no earlier tier applies (the item is not the query, the
normalized forms differ, the normalized query is not a prefix, and neither
boundary-anchored contains tier fires), a query of n ≥ 2 words all contained
in the item's word set scores exactly 1.5 + 0.2 × n; the score depends only
on the number of query words, not on word order in item or query. -/
theorem C5_multiword_score (item nItem : List Char) (iw : List (List Char))
    (query nQuery : List Char) (qw : List (List Char)) (strat : FuzzySearchStrategy)
    (h1 : item ≠ query) (h2 : nItem ≠ nQuery)
    (h3 : ¬(nQuery.isPrefixOf nItem = true))
    (h4 : ¬(indexOfSubInt item query > -1 ∧
      boundaryAt item (indexOfSubInt item query - 1) = true))
    (h5 : ¬(indexOfSubInt nItem nQuery > -1 ∧
      boundaryAt nItem (indexOfSubInt nItem nQuery - 1) = true))
    (h6 : 1 < qw.length) (h7 : qw.all (fun w => iw.contains w) = true) :
    ∃ rs, matchesFuzzilyL item nItem iw query nQuery qw strat =
      some (1.5 + (qw.length : ℚ) * 0.2, rs) := by
  simp only [matchesFuzzilyL]
  rw [if_neg h1, if_neg h2, if_neg h3, if_neg h4, if_neg h5, if_pos ⟨h6, h7⟩]
  exact ⟨_, rfl⟩

/-- C5 (witness): item "hello world", query "world hello" (reversed order)
satisfies every hypothesis and scores 1.5 + 0.2 × 2. -/
theorem C5_witness :
    ∃ rs, matchesFuzzilyL ("hello world".data) ("hello world".data)
      (("hello world".data).splitOn ' ') ("world hello".data) ("world hello".data)
      (("world hello".data).splitOn ' ') .smart =
      some (1.5 + ((("world hello".data).splitOn ' ').length : ℚ) * 0.2, rs) :=
  C5_multiword_score ("hello world".data) ("hello world".data) (("hello world".data).splitOn ' ')
    ("world hello".data) ("world hello".data) (("world hello".data).splitOn ' ') .smart
    (by decide) (by decide) (by decide) (by decide) (by decide) (by decide) (by decide)

theorem indexOfCharAux_some {c : Char} :
    ∀ (l : List Char) (i j : Nat), indexOfCharAux c l i = some j →
      i ≤ j ∧ j - i < l.length ∧ l.get? (j - i) = some c := by
  intro l
  induction l with
  | nil =>
    intro i j h
    exact absurd h (by simp [indexOfCharAux])
  | cons d t ih =>
    intro i j h
    unfold indexOfCharAux at h
    split at h
    · next hd =>
      injection h with h'
      subst h'
      refine ⟨le_refl _, by simp, ?_⟩
      simp [Nat.sub_self, hd]
    · obtain ⟨h1, h2, h3⟩ := ih (i + 1) j h
      refine ⟨by omega, by simp; omega, ?_⟩
      have hji : j - i = (j - (i + 1)) + 1 := by omega
      rw [hji]
      simpa using h3

theorem indexOfCharFrom_some {l : List Char} {c : Char} {start : Int} {j : Nat}
    (h : indexOfCharFrom l c start = some j) :
    start.toNat ≤ j ∧ j < l.length ∧ l.get? j = some c := by
  unfold indexOfCharFrom at h
  obtain ⟨h1, h2, h3⟩ := indexOfCharAux_some (l.drop start.toNat) start.toNat j h
  rw [List.length_drop] at h2
  refine ⟨h1, by omega, ?_⟩
  rw [List.get?_drop] at h3
  rw [← h3]
  congr 1
  omega

theorem indexOfCharFrom_none_of_ge {l : List Char} {c : Char} {start : Int}
    (h : l.length ≤ start.toNat) : indexOfCharFrom l c start = none := by
  unfold indexOfCharFrom
  rw [List.drop_eq_nil_of_le h]
  rfl

theorem runLen_le_left : ∀ (a b : List Char), runLen a b ≤ a.length := by
  intro a
  induction a with
  | nil => intro b; cases b <;> simp [runLen]
  | cons x a' ih =>
    intro b
    cases b with
    | nil => simp [runLen]
    | cons y b' =>
      unfold runLen
      split
      · have := ih b'
        simp
        omega
      · simp

theorem runLen_le_right : ∀ (a b : List Char), runLen a b ≤ b.length := by
  intro a
  induction a with
  | nil => intro b; cases b <;> simp [runLen]
  | cons x a' ih =>
    intro b
    cases b with
    | nil => simp [runLen]
    | cons y b' =>
      unfold runLen
      split
      · have := ih b'
        simp
        omega
      · simp

theorem runLen_cons_eq (a : Char) (as bs : List Char) :
    runLen (a :: as) (a :: bs) = runLen as bs + 1 := by
  conv_lhs => unfold runLen
  rw [if_pos rfl]

theorem runLen_ge_of_take_eq :
    ∀ (m : Nat) (a b : List Char), m ≤ a.length → a.take m = b.take m →
      m ≤ runLen a b := by
  intro m
  induction m with
  | zero => intro a b _ _; omega
  | succ m ih =>
    intro a b hlen htake
    cases a with
    | nil =>
      rw [List.length_nil] at hlen
      omega
    | cons x a' =>
      cases b with
      | nil =>
        rw [List.take_nil] at htake
        exact absurd htake (by simp)
      | cons y b' =>
        simp only [List.take_succ_cons, List.cons.injEq] at htake
        obtain ⟨rfl, htake'⟩ := htake
        rw [runLen_cons_eq]
        have := ih a' b' (by simpa using hlen) htake'
        omega

theorem drop_eq_cons_of_get? :
    ∀ (l : List Char) (n : Nat) (a : Char), l.get? n = some a →
      l.drop n = a :: l.drop (n + 1) := by
  intro l
  induction l with
  | nil => intro n a h; simp at h
  | cons c t ih =>
    intro n a h
    cases n with
    | zero =>
      simp at h
      subst h
      simp
    | succ n' =>
      simp only [List.get?] at h
      have := ih n' a h
      simpa using this

/-- One unfolding step of the smart scan loop. -/
theorem smartGo_succ (item query : List Char) (fuel : Nat) (qi : Nat) (cli : Int)
    (acc : HighlightRanges) :
    smartGo item query (fuel + 1) qi cli acc =
      match query.get? qi with
      | none => none
      | some qc =>
        match indexOfCharFrom item qc (cli + 1) with
        | none => none
        | some idx =>
          if idx = 0 ∨ boundaryAt item ((idx : Int) - 1) = true ∨
              (query.drop qi).take (min 3 (min (query.length - qi) (item.length - idx))) =
                (item.drop idx).take
                  (min 3 (min (query.length - qi) (item.length - idx))) then
            if qi + runLen (item.drop idx) (query.drop qi) = query.length then
              some (scoreConsecutiveLetters
                (acc ++ [((idx : Int),
                  (idx : Int) + (runLen (item.drop idx) (query.drop qi) : Int) - 1)]) item)
            else
              smartGo item query fuel (qi + runLen (item.drop idx) (query.drop qi))
                ((idx : Int) + (runLen (item.drop idx) (query.drop qi) : Int) - 1)
                (acc ++ [((idx : Int),
                  (idx : Int) + (runLen (item.drop idx) (query.drop qi) : Int) - 1)])
          else smartGo item query fuel qi (cli + 1) acc := rfl

/-- If the current query character does not exist, the scan returns `none`
whatever the fuel. -/
theorem smartGo_qnone {item query : List Char} {qi : Nat} {cli : Int}
    {acc : HighlightRanges} (h : query.get? qi = none) :
    ∀ g, smartGo item query g qi cli acc = none := by
  intro g
  cases g with
  | zero => rfl
  | succ g' => simp only [smartGo_succ, h]

/-- If the current query character is not found from the scan position, the
scan returns `none` whatever the fuel. -/
theorem smartGo_inone {item query : List Char} {qi : Nat} {cli : Int}
    {acc : HighlightRanges} {qc : Char} (hq : query.get? qi = some qc)
    (hi : indexOfCharFrom item qc (cli + 1) = none) :
    ∀ g, smartGo item query g qi cli acc = none := by
  intro g
  cases g with
  | zero => rfl
  | succ g' => simp only [smartGo_succ, hq, hi]

/-- Acceptance step of the smart scan loop. -/
theorem smartGo_step_accept {item query : List Char} {f qi : Nat} {cli : Int}
    {acc : HighlightRanges} {qc : Char} {idx : Nat}
    (hq : query.get? qi = some qc) (hi : indexOfCharFrom item qc (cli + 1) = some idx)
    (hacc : idx = 0 ∨ boundaryAt item ((idx : Int) - 1) = true ∨
      (query.drop qi).take (min 3 (min (query.length - qi) (item.length - idx))) =
        (item.drop idx).take (min 3 (min (query.length - qi) (item.length - idx)))) :
    smartGo item query (f + 1) qi cli acc =
      if qi + runLen (item.drop idx) (query.drop qi) = query.length then
        some (scoreConsecutiveLetters
          (acc ++ [((idx : Int),
            (idx : Int) + (runLen (item.drop idx) (query.drop qi) : Int) - 1)]) item)
      else
        smartGo item query f (qi + runLen (item.drop idx) (query.drop qi))
          ((idx : Int) + (runLen (item.drop idx) (query.drop qi) : Int) - 1)
          (acc ++ [((idx : Int),
            (idx : Int) + (runLen (item.drop idx) (query.drop qi) : Int) - 1)]) := by
  simp only [smartGo_succ, hq, hi]
  rw [if_pos hacc]

/-- Rejection step of the smart scan loop: advance the scan position by one. -/
theorem smartGo_step_reject {item query : List Char} {f qi : Nat} {cli : Int}
    {acc : HighlightRanges} {qc : Char} {idx : Nat}
    (hq : query.get? qi = some qc) (hi : indexOfCharFrom item qc (cli + 1) = some idx)
    (hacc : ¬(idx = 0 ∨ boundaryAt item ((idx : Int) - 1) = true ∨
      (query.drop qi).take (min 3 (min (query.length - qi) (item.length - idx))) =
        (item.drop idx).take (min 3 (min (query.length - qi) (item.length - idx))))) :
    smartGo item query (f + 1) qi cli acc = smartGo item query f qi (cli + 1) acc := by
  simp only [smartGo_succ, hq, hi]
  rw [if_neg hacc]

/-- Facts available whenever the scan finds an occurrence: the found index is
past the scan position, inside the item, carries the query character, and the
extension consumes at least one character. -/
theorem smartGo_found_facts {item query : List Char} {qi : Nat} {cli : Int} {qc : Char}
    {idx : Nat} (hq : query.get? qi = some qc)
    (hi : indexOfCharFrom item qc (cli + 1) = some idx) :
    cli + 1 ≤ (idx : Int) ∧ idx < item.length ∧
      1 ≤ runLen (item.drop idx) (query.drop qi) := by
  obtain ⟨hstart, hlt, hget⟩ := indexOfCharFrom_some hi
  have hcli1 : cli + 1 ≤ (idx : Int) := by
    have h1 : (cli + 1 : Int) ≤ ((cli + 1).toNat : Int) := Int.self_le_toNat _
    have h2 : ((cli + 1).toNat : Int) ≤ (idx : Int) := by exact_mod_cast hstart
    omega
  refine ⟨hcli1, hlt, ?_⟩
  rw [drop_eq_cons_of_get? item idx qc hget, drop_eq_cons_of_get? query qi qc hq,
    runLen_cons_eq]
  omega

theorem smartGo_fuel_eq_measure (item query : List Char) :
    ∀ (μ : Nat), ∀ (f : Nat) (qi : Nat) (cli : Int) (acc : HighlightRanges),
      -2 ≤ cli → ((item.length : Int) - cli).toNat = μ → μ ≤ f →
      smartGo item query f qi cli acc = smartGo item query μ qi cli acc := by
  intro μ
  induction μ using Nat.strong_induction_on with
  | _ μ ih =>
    intro f qi cli acc hcli hμ hf
    cases hqc : query.get? qi with
    | none => rw [smartGo_qnone hqc, smartGo_qnone hqc]
    | some qc =>
      cases hidx : indexOfCharFrom item qc (cli + 1) with
      | none => rw [smartGo_inone hqc hidx, smartGo_inone hqc hidx]
      | some idx =>
        obtain ⟨hcli1, hlt, hk1⟩ := smartGo_found_facts hqc hidx
        have hμ2 : 2 ≤ μ := by omega
        obtain ⟨μ₀, rfl⟩ : ∃ μ₀, μ = μ₀ + 1 := ⟨μ - 1, by omega⟩
        obtain ⟨f', rfl⟩ : ∃ f', f = f' + 1 := ⟨f - 1, by omega⟩
        by_cases hacc : idx = 0 ∨ boundaryAt item ((idx : Int) - 1) = true ∨
            (query.drop qi).take (min 3 (min (query.length - qi) (item.length - idx))) =
              (item.drop idx).take (min 3 (min (query.length - qi) (item.length - idx)))
        · rw [smartGo_step_accept hqc hidx hacc, smartGo_step_accept hqc hidx hacc]
          by_cases hdone : qi + runLen (item.drop idx) (query.drop qi) = query.length
          · rw [if_pos hdone, if_pos hdone]
          · rw [if_neg hdone, if_neg hdone]
            have hrec : (-2 : Int) ≤
                (idx : Int) + (runLen (item.drop idx) (query.drop qi) : Int) - 1 := by
              omega
            have hμr : (((item.length : Int) -
                ((idx : Int) + (runLen (item.drop idx) (query.drop qi) : Int) - 1)).toNat) <
                μ₀ + 1 := by omega
            rw [ih _ hμr f' _ _ _ hrec rfl (by omega), ih _ hμr μ₀ _ _ _ hrec rfl (by omega)]
        · rw [smartGo_step_reject hqc hidx hacc, smartGo_step_reject hqc hidx hacc]
          have hμr : ((item.length : Int) - (cli + 1)).toNat < μ₀ + 1 := by omega
          rw [ih _ hμr f' _ _ _ (by omega) rfl (by omega),
            ih _ hμr μ₀ _ _ _ (by omega) rfl (by omega)]

/-- C10: the smart scan loop terminates within `item.length + 2` iterations:
any fuel of at least `normalizedItem.length + 2` computes the same result as
`smartFuzzyMatchL` (which uses exactly that much fuel), because every
iteration either strictly advances the scan position `chunkLastIdx` (the
rejection branch by one, the acceptance branch past the accepted chunk) or
exits. -/
theorem C10_smart_loop_terminates (normalizedItem normalizedQuery : List Char) (fuel : Nat)
    (h : normalizedItem.length + 2 ≤ fuel) :
    smartGo normalizedItem normalizedQuery fuel 0 (-2) [] =
      smartFuzzyMatchL normalizedItem normalizedQuery := by
  unfold smartFuzzyMatchL
  have hμ : ((normalizedItem.length : Int) - (-2)).toNat = normalizedItem.length + 2 := by
    omega
  rw [smartGo_fuel_eq_measure normalizedItem normalizedQuery (normalizedItem.length + 2)
      fuel 0 (-2) [] (by omega) hμ h,
    smartGo_fuel_eq_measure normalizedItem normalizedQuery (normalizedItem.length + 2)
      (normalizedItem.length + 2) 0 (-2) [] (by omega) hμ (le_refl _)]

/-- C10 (witness): with item `"ab"` and query `"zz"`, fuel 10 computes the
same result as the matcher's own fuel `2 + 2`. -/
theorem C10_witness :
    smartGo ("ab".data) ("zz".data) 10 0 (-2) [] =
      smartFuzzyMatchL ("ab".data) ("zz".data) :=
  C10_smart_loop_terminates ("ab".data) ("zz".data) 10 (by decide)

theorem get?_some_lt {l : List Char} {n : Nat} {a : Char} (h : l.get? n = some a) :
    n < l.length := by
  by_contra hn
  rw [List.get?_eq_none.mpr (by omega)] at h
  exact absurd h (by simp)

theorem dropLast_cons_of_ne {α : Type} (a : α) {l : List α} (h : l ≠ []) :
    (a :: l).dropLast = a :: l.dropLast := by
  cases l with
  | nil => exact absurd rfl h
  | cons b t => rfl

theorem smartGo_some_chunks (item query : List Char) :
    ∀ (fuel qi : Nat) (cli : Int) (acc : HighlightRanges) (s : ℚ)
      (chunks : HighlightRanges),
      smartGo item query fuel qi cli acc = some (s, chunks) →
      ∃ new, new ≠ [] ∧ chunks = acc ++ new ∧
        ∀ r ∈ new.dropLast,
          r.1 = 0 ∨ boundaryAt item (r.1 - 1) = true ∨ 3 ≤ r.2 - r.1 + 1 := by
  intro fuel
  induction fuel with
  | zero =>
    intro qi cli acc s chunks h
    exact absurd h (by simp [smartGo])
  | succ f ih =>
    intro qi cli acc s chunks h
    cases hqc : query.get? qi with
    | none =>
      rw [smartGo_qnone hqc] at h
      exact absurd h (by simp)
    | some qc =>
      cases hidx : indexOfCharFrom item qc (cli + 1) with
      | none =>
        rw [smartGo_inone hqc hidx] at h
        exact absurd h (by simp)
      | some idx =>
        obtain ⟨hcli1, hlt, hk1⟩ := smartGo_found_facts hqc hidx
        by_cases hacc : idx = 0 ∨ boundaryAt item ((idx : Int) - 1) = true ∨
            (query.drop qi).take (min 3 (min (query.length - qi) (item.length - idx))) =
              (item.drop idx).take (min 3 (min (query.length - qi) (item.length - idx)))
        · rw [smartGo_step_accept hqc hidx hacc] at h
          by_cases hdone : qi + runLen (item.drop idx) (query.drop qi) = query.length
          · rw [if_pos hdone] at h
            injection h with h'
            have hch : chunks = acc ++ [((idx : Int),
                (idx : Int) + (runLen (item.drop idx) (query.drop qi) : Int) - 1)] := by
              have h2 := congrArg Prod.snd h'
              rw [scoreConsecutiveLetters_snd] at h2
              exact h2.symm
            exact ⟨_, by simp, hch, by simp⟩
          · rw [if_neg hdone] at h
            obtain ⟨new', hne', hch', hgood'⟩ := ih _ _ _ _ _ h
            refine ⟨((idx : Int),
              (idx : Int) + (runLen (item.drop idx) (query.drop qi) : Int) - 1) :: new',
              by simp, by rw [hch']; simp, ?_⟩
            intro r hr
            rw [dropLast_cons_of_ne _ hne'] at hr
            cases hr with
            | tail _ hr' => exact hgood' r hr'
            | head =>
              rcases hacc with h0 | hb | hsl
              · left
                simp [h0]
              · right
                left
                exact hb
              · right
                right
                have hqi : qi < query.length := get?_some_lt hqc
                have hkm : min 3 (min (query.length - qi) (item.length - idx)) ≤
                    runLen (item.drop idx) (query.drop qi) := by
                  apply runLen_ge_of_take_eq
                  · rw [List.length_drop]
                    omega
                  · exact hsl.symm
                have hkq : runLen (item.drop idx) (query.drop qi) ≤ query.length - qi := by
                  have := runLen_le_right (item.drop idx) (query.drop qi)
                  rwa [List.length_drop] at this
                have hkiLt : idx + runLen (item.drop idx) (query.drop qi) < item.length := by
                  cases hq2 : query.get? (qi + runLen (item.drop idx) (query.drop qi)) with
                  | none =>
                    rw [smartGo_qnone hq2] at h
                    exact absurd h (by simp)
                  | some qc2 =>
                    cases hidx2 : indexOfCharFrom item qc2
                        ((idx : Int) + (runLen (item.drop idx) (query.drop qi) : Int) - 1
                          + 1) with
                    | none =>
                      rw [smartGo_inone hq2 hidx2] at h
                      exact absurd h (by simp)
                    | some idx2 =>
                      obtain ⟨hc2, hl2, _⟩ := smartGo_found_facts hq2 hidx2
                      omega
                have hk3 : 3 ≤ runLen (item.drop idx) (query.drop qi) := by omega
                push_cast
                omega
        · rw [smartGo_step_reject hqc hidx hacc] at h
          exact ih _ _ _ _ _ h

/-- C1 (amended): in a successful smart match, every chunk other than the
final one that is a single character either starts at index 0 or is preceded
by a word-boundary character; only the final chunk can be an isolated single
letter mid-word, because the lookahead compares only
`min(3, remaining query, remaining item)` characters and degenerates near the
end of the query or item. -/
theorem C1_smart_no_nonfinal_isolated_letter (normalizedItem normalizedQuery : List Char)
    (s : ℚ) (chunks : HighlightRanges)
    (h : smartFuzzyMatchL normalizedItem normalizedQuery = some (s, chunks)) :
    ∀ r ∈ chunks.dropLast, r.2 = r.1 →
      r.1 = 0 ∨ boundaryAt normalizedItem (r.1 - 1) = true := by
  intro r hr hsingle
  obtain ⟨new, hne, hch, hgood⟩ :=
    smartGo_some_chunks normalizedItem normalizedQuery _ _ _ _ _ _ h
  rw [hch, List.nil_append] at hr
  rcases hgood r hr with h0 | hb | h3
  · exact Or.inl h0
  · exact Or.inr hb
  · rw [hsingle] at h3
    omega

/-- C1 (counterexample): `smartFuzzyMatch("b xa", "ba")` succeeds and its
match contains the chunk `(3,3)`: a single character at index 3 ≠ 0 whose
preceding character `x` is not a word-boundary character — the smart strategy
does match an isolated single letter outside a word boundary (the final
chunk, where the lookahead degenerates to one character). -/
theorem C1_counterexample :
    (smartFuzzyMatchL ("b xa".data) ("ba".data)).map (fun x => x.2) =
        some [((0 : Int), (0 : Int)), (3, 3)] ∧
      charAt ("b xa".data) 2 = some 'x' ∧
      isValidWordBoundary 'x' = false ∧
      boundaryAt ("b xa".data) ((3 : Int) - 1) = false := by
  refine ⟨by decide, by decide, by decide, by decide⟩

/-- C1 (witness): the amended statement applied to the concrete match
`smartFuzzyMatch("b xa", "ba")`, whose non-final chunk `(0,0)` starts at
index 0. -/
theorem C1_witness :
    ∃ s chunks, smartFuzzyMatchL ("b xa".data) ("ba".data) = some (s, chunks) ∧
      ∀ r ∈ chunks.dropLast, r.2 = r.1 →
        r.1 = 0 ∨ boundaryAt ("b xa".data) (r.1 - 1) = true :=
  ⟨_, _, rfl, C1_smart_no_nonfinal_isolated_letter ("b xa".data) ("ba".data) _ _ rfl⟩

theorem smartGo_chunks_ordered (item query : List Char) :
    ∀ (fuel qi : Nat) (cli : Int) (acc : HighlightRanges) (s : ℚ)
      (chunks : HighlightRanges),
      smartGo item query fuel qi cli acc = some (s, chunks) →
      (∀ r ∈ acc, r.1 ≤ r.2 ∧ r.2 ≤ cli) →
      List.Pairwise (fun r1 r2 : Range => r1.2 < r2.1) acc →
      (∀ r ∈ chunks, r.1 ≤ r.2) ∧
        List.Pairwise (fun r1 r2 : Range => r1.2 < r2.1) chunks := by
  intro fuel
  induction fuel with
  | zero =>
    intro qi cli acc s chunks h
    exact absurd h (by simp [smartGo])
  | succ f ih =>
    intro qi cli acc s chunks h hwf hpw
    cases hqc : query.get? qi with
    | none =>
      rw [smartGo_qnone hqc] at h
      exact absurd h (by simp)
    | some qc =>
      cases hidx : indexOfCharFrom item qc (cli + 1) with
      | none =>
        rw [smartGo_inone hqc hidx] at h
        exact absurd h (by simp)
      | some idx =>
        obtain ⟨hcli1, hlt, hk1⟩ := smartGo_found_facts hqc hidx
        by_cases hacc : idx = 0 ∨ boundaryAt item ((idx : Int) - 1) = true ∨
            (query.drop qi).take (min 3 (min (query.length - qi) (item.length - idx))) =
              (item.drop idx).take (min 3 (min (query.length - qi) (item.length - idx)))
        · rw [smartGo_step_accept hqc hidx hacc] at h
          have hwf' : ∀ r ∈ acc ++ [((idx : Int),
              (idx : Int) + (runLen (item.drop idx) (query.drop qi) : Int) - 1)],
              r.1 ≤ r.2 ∧ r.2 ≤ (idx : Int) +
                (runLen (item.drop idx) (query.drop qi) : Int) - 1 := by
            intro r hr
            rcases List.mem_append.mp hr with hra | hrb
            · obtain ⟨h1, h2⟩ := hwf r hra
              refine ⟨h1, by omega⟩
            · rw [List.mem_singleton] at hrb
              subst hrb
              constructor <;> [omega; omega]
          have hpw' : List.Pairwise (fun r1 r2 : Range => r1.2 < r2.1)
              (acc ++ [((idx : Int),
                (idx : Int) + (runLen (item.drop idx) (query.drop qi) : Int) - 1)]) := by
            rw [List.pairwise_append]
            refine ⟨hpw, by simp, ?_⟩
            intro a ha b hb
            rw [List.mem_singleton] at hb
            subst hb
            obtain ⟨_, h2⟩ := hwf a ha
            show a.2 < (idx : Int)
            omega
          by_cases hdone : qi + runLen (item.drop idx) (query.drop qi) = query.length
          · rw [if_pos hdone] at h
            injection h with h'
            have hch : chunks = acc ++ [((idx : Int),
                (idx : Int) + (runLen (item.drop idx) (query.drop qi) : Int) - 1)] := by
              have h2 := congrArg Prod.snd h'
              rw [scoreConsecutiveLetters_snd] at h2
              exact h2.symm
            subst hch
            exact ⟨fun r hr => (hwf' r hr).1, hpw'⟩
          · rw [if_neg hdone] at h
            exact ih _ _ _ _ _ h hwf' hpw'
        · rw [smartGo_step_reject hqc hidx hacc] at h
          refine ih _ _ _ _ _ h (fun r hr => ?_) hpw
          obtain ⟨h1, h2⟩ := hwf r hr
          exact ⟨h1, by omega⟩

theorem aggressiveGo_chunks_ordered (item query : List Char) :
    ∀ (rest : List Char) (itemIdx queryIdx : Nat) (cf cl : Int)
      (indices : HighlightRanges) (s : ℚ) (chunks : HighlightRanges),
      aggressiveGo item query rest itemIdx queryIdx cf cl indices = some (s, chunks) →
      ((cf = -1 ∧ cl = -2 ∧ indices = []) ∨
        (0 ≤ cf ∧ cf ≤ cl ∧ cl < (itemIdx : Int) ∧
          List.Pairwise (fun r1 r2 : Range => r1.2 < r2.1) indices ∧
          ∀ r ∈ indices, r.1 ≤ r.2 ∧ r.2 + 1 < cf)) →
      (∀ r ∈ chunks, r.1 ≤ r.2) ∧
        List.Pairwise (fun r1 r2 : Range => r1.2 < r2.1) chunks := by
  intro rest
  induction rest with
  | nil =>
    intro itemIdx queryIdx cf cl indices s chunks h
    exact absurd h (by simp [aggressiveGo])
  | cons c t ih =>
    intro itemIdx queryIdx cf cl indices s chunks h hinv
    cases hqc : query.get? queryIdx with
    | none =>
      simp only [aggressiveGo, hqc] at h
      exact absurd h (by simp)
    | some qc =>
      simp only [aggressiveGo, hqc] at h
      by_cases hceq : c = qc
      · rw [if_pos hceq] at h
        by_cases hadj : (itemIdx : Int) ≠ cl + 1
        · rw [if_pos hadj] at h
          by_cases hcf : (0 : Int) ≤ cf
          · -- push the previous chunk, start a new one at itemIdx
            rw [if_pos hcf] at h
            rcases hinv with ⟨hcf1, _, _⟩ | ⟨h0, h1, h2, h3, h4⟩
            · omega
            have hcl1 : cl + 1 < (itemIdx : Int) := by omega
            have hpw' : List.Pairwise (fun r1 r2 : Range => r1.2 < r2.1)
                (indices ++ [(cf, cl)]) := by
              rw [List.pairwise_append]
              refine ⟨h3, by simp, ?_⟩
              intro a ha b hb
              rw [List.mem_singleton] at hb
              subst hb
              obtain ⟨_, hb2⟩ := h4 a ha
              show a.2 < cf
              omega
            have hwf' : ∀ r ∈ indices ++ [(cf, cl)], r.1 ≤ r.2 ∧ r.2 + 1 < (itemIdx : Int)
                := by
              intro r hr
              rcases List.mem_append.mp hr with hra | hrb
              · obtain ⟨ha1, ha2⟩ := h4 r hra
                exact ⟨ha1, by omega⟩
              · rw [List.mem_singleton] at hrb
                subst hrb
                exact ⟨h1, by omega⟩
            by_cases hlast : queryIdx + 1 = query.length
            · rw [if_pos hlast] at h
              injection h with h'
              have hch : chunks = (indices ++ [(cf, cl)]) ++ [((itemIdx : Int),
                  (itemIdx : Int))] := by
                have hsnd := congrArg Prod.snd h'
                rw [scoreConsecutiveLetters_snd] at hsnd
                exact hsnd.symm
              subst hch
              constructor
              · intro r hr
                rcases List.mem_append.mp hr with hra | hrb
                · exact (hwf' r hra).1
                · rw [List.mem_singleton] at hrb
                  subst hrb
                  exact le_refl _
              · rw [List.pairwise_append]
                refine ⟨hpw', by simp, ?_⟩
                intro a ha b hb
                rw [List.mem_singleton] at hb
                subst hb
                obtain ⟨_, ha2⟩ := hwf' a ha
                show a.2 < (itemIdx : Int)
                omega
            · rw [if_neg hlast] at h
              refine ih _ _ _ _ _ _ _ h (Or.inr ⟨by omega, by omega, by push_cast; omega,
                hpw', fun r hr => ?_⟩)
              obtain ⟨ha1, ha2⟩ := hwf' r hr
              exact ⟨ha1, by omega⟩
          · -- no previous chunk: start the first chunk at itemIdx
            rw [if_neg hcf] at h
            rcases hinv with ⟨hcf1, hcl1, hind⟩ | ⟨h0, _, _, _, _⟩
            · subst hind
              by_cases hlast : queryIdx + 1 = query.length
              · rw [if_pos hlast] at h
                injection h with h'
                have hch : chunks = [] ++ [((itemIdx : Int), (itemIdx : Int))] := by
                  have hsnd := congrArg Prod.snd h'
                  rw [scoreConsecutiveLetters_snd] at hsnd
                  exact hsnd.symm
                subst hch
                exact ⟨by simp, by simp⟩
              · rw [if_neg hlast] at h
                exact ih _ _ _ _ _ _ _ h (Or.inr ⟨by omega, by omega, by push_cast; omega,
                  by simp, by simp⟩)
            · omega
        · -- adjacent position: extend the current chunk
          rw [if_neg hadj] at h
          rcases hinv with ⟨_, hcl1, _⟩ | ⟨h0, h1, h2, h3, h4⟩
          · omega
          by_cases hlast : queryIdx + 1 = query.length
          · rw [if_pos hlast] at h
            injection h with h'
            have hch : chunks = indices ++ [(cf, (itemIdx : Int))] := by
              have hsnd := congrArg Prod.snd h'
              rw [scoreConsecutiveLetters_snd] at hsnd
              exact hsnd.symm
            subst hch
            constructor
            · intro r hr
              rcases List.mem_append.mp hr with hra | hrb
              · exact (h4 r hra).1
              · rw [List.mem_singleton] at hrb
                subst hrb
                show cf ≤ (itemIdx : Int)
                omega
            · rw [List.pairwise_append]
              refine ⟨h3, by simp, ?_⟩
              intro a ha b hb
              rw [List.mem_singleton] at hb
              subst hb
              obtain ⟨_, ha2⟩ := h4 a ha
              show a.2 < cf
              omega
          · rw [if_neg hlast] at h
            exact ih _ _ _ _ _ _ _ h (Or.inr ⟨h0, by omega, by push_cast; omega, h3,
              fun r hr => ⟨(h4 r hr).1, by obtain ⟨_, hx⟩ := h4 r hr; omega⟩⟩)
      · rw [if_neg hceq] at h
        rcases hinv with ⟨hcf1, hcl1, hind⟩ | ⟨h0, h1, h2, h3, h4⟩
        · exact ih _ _ _ _ _ _ _ h (Or.inl ⟨hcf1, hcl1, hind⟩)
        · exact ih _ _ _ _ _ _ _ h (Or.inr ⟨h0, h1, by push_cast; omega, h3, h4⟩)

/-- C4 (amended): within one match result the ranges are ordered by ascending
start index in every tier (the multi-word tier by its explicit sort, the other
tiers by construction); moreover the two fuzzy matchers produce ranges that
are also pairwise non-overlapping (each chunk ends strictly before the next
begins).  The multi-word tier alone can produce overlapping ranges, which is
what the counterexample exhibits. -/
theorem C4_ranges_ascending :
    (∀ (item nItem : List Char) (iw : List (List Char)) (query nQuery : List Char)
        (qw : List (List Char)) (strat : FuzzySearchStrategy) (s : ℚ)
        (rs : HighlightRanges),
      matchesFuzzilyL item nItem iw query nQuery qw strat = some (s, rs) →
      List.Pairwise (fun r1 r2 : Range => r1.1 ≤ r2.1) rs) ∧
    (∀ (nItem nQuery : List Char) (s : ℚ) (rs : HighlightRanges),
      smartFuzzyMatchL nItem nQuery = some (s, rs) →
      List.Pairwise (fun r1 r2 : Range => r1.2 < r2.1) rs) ∧
    (∀ (nItem nQuery : List Char) (s : ℚ) (rs : HighlightRanges),
      aggressiveFuzzyMatchL nItem nQuery = some (s, rs) →
      List.Pairwise (fun r1 r2 : Range => r1.2 < r2.1) rs) := by
  have hsmart : ∀ (nItem nQuery : List Char) (s : ℚ) (rs : HighlightRanges),
      smartFuzzyMatchL nItem nQuery = some (s, rs) →
      (∀ r ∈ rs, r.1 ≤ r.2) ∧ List.Pairwise (fun r1 r2 : Range => r1.2 < r2.1) rs := by
    intro nItem nQuery s rs h
    exact smartGo_chunks_ordered nItem nQuery _ _ _ _ _ _ h (by simp) (by simp)
  have hagg : ∀ (nItem nQuery : List Char) (s : ℚ) (rs : HighlightRanges),
      aggressiveFuzzyMatchL nItem nQuery = some (s, rs) →
      (∀ r ∈ rs, r.1 ≤ r.2) ∧ List.Pairwise (fun r1 r2 : Range => r1.2 < r2.1) rs := by
    intro nItem nQuery s rs h
    exact aggressiveGo_chunks_ordered nItem nQuery _ _ _ _ _ _ _ _ h
      (Or.inl ⟨rfl, rfl, rfl⟩)
  refine ⟨?_, fun a b c d h => (hsmart a b c d h).2, fun a b c d h => (hagg a b c d h).2⟩
  intro item nItem iw query nQuery qw strat s rs h
  have hdisj_asc : ∀ (rs : HighlightRanges), (∀ r ∈ rs, r.1 ≤ r.2) →
      List.Pairwise (fun r1 r2 : Range => r1.2 < r2.1) rs →
      List.Pairwise (fun r1 r2 : Range => r1.1 ≤ r2.1) rs := by
    intro rs hwf hpw
    refine List.Pairwise.imp_of_mem ?_ hpw
    intro a b ha hb hab
    exact le_trans (hwf a ha) (le_of_lt hab)
  have hsingle : ∀ (x : ℚ) (r : Range), some ((x, [r]) : ℚ × HighlightRanges) = some (s, rs)
      → List.Pairwise (fun r1 r2 : Range => r1.1 ≤ r2.1) rs := by
    intro x r hx
    injection hx with hx'
    rw [Prod.mk.injEq] at hx'
    obtain ⟨_, h2⟩ := hx'
    subst h2
    simp
  simp only [matchesFuzzilyL] at h
  split at h
  · exact hsingle _ _ h
  · split at h
    · exact hsingle _ _ h
    · split at h
      · exact hsingle _ _ h
      · split at h
        · exact hsingle _ _ h
        · split at h
          · exact hsingle _ _ h
          · split at h
            · -- multi-word tier: explicitly sorted ascending by start
              injection h with h'
              rw [Prod.mk.injEq] at h'
              obtain ⟨_, h2⟩ := h'
              subst h2
              haveI hTot : IsTotal Range sortRangeTuple := ⟨fun a b => le_total a.1 b.1⟩
              haveI hTrans : IsTrans Range sortRangeTuple :=
                ⟨fun a b c hab hbc => le_trans hab hbc⟩
              exact List.sorted_insertionSort sortRangeTuple _
            · split at h
              · exact hsingle _ _ h
              · cases strat with
                | aggressive =>
                  obtain ⟨hwf, hpw⟩ := hagg _ _ _ _ h
                  exact hdisj_asc rs hwf hpw
                | smart =>
                  obtain ⟨hwf, hpw⟩ := hsmart _ _ _ _ h
                  exact hdisj_asc rs hwf hpw
                | off => exact absurd h (by simp)

/-- C4 (counterexample): `fuzzyMatch("ab b", "b ab")` goes through the
multi-word tier and returns the ranges `[(0,1), (1,1)]`, which overlap (both
contain index 1): the claimed pairwise non-overlap fails. -/
theorem C4_counterexample :
    (fuzzyMatch "ab b" "b ab").map (fun r => r.matches) =
        some [some [((0 : Int), (1 : Int)), (1, 1)]] ∧
      ¬ List.Pairwise (fun r1 r2 : Range => r1.2 < r2.1)
        [((0 : Int), (1 : Int)), (1, 1)] := by
  constructor
  · decide
  · intro hp
    rw [List.pairwise_cons] at hp
    have := hp.1 (1, 1) (by simp)
    omega

/-- C4 (witness): the ascending-start part applied to the concrete
multi-word match of item "ab b" against query "b ab" (ranges
`[(0,1),(1,1)]`), and the non-overlap part applied to the concrete smart
match of "b xa" against "ba" (chunks `[(0,0),(3,3)]`). -/
theorem C4_witness :
    List.Pairwise (fun r1 r2 : Range => r1.1 ≤ r2.1)
        [((0 : Int), (1 : Int)), (1, 1)] ∧
      List.Pairwise (fun r1 r2 : Range => r1.2 < r2.1) [((0 : Int), (0 : Int)), (3, 3)] := by
  constructor
  · exact C4_ranges_ascending.1 ("ab b".data) ("ab b".data)
      (("ab b".data).splitOn ' ') ("b ab".data) ("b ab".data)
      (("b ab".data).splitOn ' ') .smart _ _ rfl
  · exact C4_ranges_ascending.2.1 ("b xa".data) ("ba".data) _ _ rfl

/-- Every per-chunk penalty of the consecutive-run scorer is non-negative. -/
theorem scoreConsecutiveLetters_ge_two (l : HighlightRanges) (i : List Char) :
    2 ≤ (scoreConsecutiveLetters l i).1 := by
  rw [scoreConsecutiveLetters_eq]
  show (2 : ℚ) ≤ 2 + (l.map (chunkScoreSpaceBoundary i)).sum
  have hsum : (0 : ℚ) ≤ (l.map (chunkScoreSpaceBoundary i)).sum := by
    apply List.sum_nonneg
    intro x hx
    rw [List.mem_map] at hx
    obtain ⟨r, _, rfl⟩ := hx
    unfold chunkScoreSpaceBoundary
    dsimp only
    split_ifs <;> norm_num
  linarith

/-- Every successful smart match scores at least the base 2. -/
theorem smartGo_score_ge_two (item query : List Char) :
    ∀ (fuel qi : Nat) (cli : Int) (acc : HighlightRanges) (s : ℚ) (rs : HighlightRanges),
      smartGo item query fuel qi cli acc = some (s, rs) → 2 ≤ s := by
  intro fuel
  induction fuel with
  | zero =>
    intro qi cli acc s rs h
    exact absurd h (by simp [smartGo])
  | succ f ih =>
    intro qi cli acc s rs h
    cases hqc : query.get? qi with
    | none =>
      rw [smartGo_qnone hqc] at h
      exact absurd h (by simp)
    | some qc =>
      cases hidx : indexOfCharFrom item qc (cli + 1) with
      | none =>
        rw [smartGo_inone hqc hidx] at h
        exact absurd h (by simp)
      | some idx =>
        by_cases hacc : idx = 0 ∨ boundaryAt item ((idx : Int) - 1) = true ∨
            (query.drop qi).take (min 3 (min (query.length - qi) (item.length - idx))) =
              (item.drop idx).take (min 3 (min (query.length - qi) (item.length - idx)))
        · rw [smartGo_step_accept hqc hidx hacc] at h
          by_cases hdone : qi + runLen (item.drop idx) (query.drop qi) = query.length
          · rw [if_pos hdone] at h
            injection h with h'
            have h1 := congrArg Prod.fst h'
            dsimp at h1
            rw [← h1]
            exact scoreConsecutiveLetters_ge_two _ _
          · rw [if_neg hdone] at h
            exact ih _ _ _ _ _ h
        · rw [smartGo_step_reject hqc hidx hacc] at h
          exact ih _ _ _ _ _ h

/-- Every successful aggressive match scores at least the base 2. -/
theorem aggressiveGo_score_ge_two (item query : List Char) :
    ∀ (rest : List Char) (itemIdx queryIdx : Nat) (cf cl : Int)
      (indices : HighlightRanges) (s : ℚ) (rs : HighlightRanges),
      aggressiveGo item query rest itemIdx queryIdx cf cl indices = some (s, rs) →
      2 ≤ s := by
  intro rest
  induction rest with
  | nil =>
    intro itemIdx queryIdx cf cl indices s rs h
    exact absurd h (by simp [aggressiveGo])
  | cons c t ih =>
    intro itemIdx queryIdx cf cl indices s rs h
    cases hqc : query.get? queryIdx with
    | none =>
      simp only [aggressiveGo, hqc] at h
      exact absurd h (by simp)
    | some qc =>
      simp only [aggressiveGo, hqc] at h
      by_cases hceq : c = qc
      · rw [if_pos hceq] at h
        by_cases hlast : queryIdx + 1 = query.length
        · rw [if_pos hlast] at h
          injection h with h'
          have h1 := congrArg Prod.fst h'
          dsimp at h1
          rw [← h1]
          exact scoreConsecutiveLetters_ge_two _ _
        · rw [if_neg hlast] at h
          exact ih _ _ _ _ _ _ _ h
      · rw [if_neg hceq] at h
        exact ih _ _ _ _ _ _ _ h

/-- C3 (amended): the exact-case contains tier does not treat a match at
index 0 as boundary-preceded — its guard reads the preceding character,
which does not exist at index 0, and `undefined` is not in the boundary
set — so whenever the exact-case substring search finds the query at index 0
of the item, the orchestrator never returns this tier's result `(0.9, …)`:
every other tier's score is distinct from 0.9 (0, 0.1, 0.5, 1, 1.5 + 0.2n,
2, or at least 2 for the fuzzy strategies). -/
theorem C3_index_zero_never_scores_nine (item nItem : List Char)
    (iw : List (List Char)) (query nQuery : List Char) (qw : List (List Char))
    (strat : FuzzySearchStrategy) (rs : HighlightRanges)
    (h0 : indexOfSubInt item query = 0) :
    matchesFuzzilyL item nItem iw query nQuery qw strat ≠ some (0.9, rs) := by
  intro h
  simp only [matchesFuzzilyL] at h
  split at h
  · injection h with h'
    rw [Prod.mk.injEq] at h'
    exact absurd h'.1 (by norm_num)
  · split at h
    · injection h with h'
      rw [Prod.mk.injEq] at h'
      exact absurd h'.1 (by norm_num)
    · split at h
      · injection h with h'
        rw [Prod.mk.injEq] at h'
        exact absurd h'.1 (by norm_num)
      · split at h
        · rename_i hcond
          rw [h0] at hcond
          obtain ⟨_, hb⟩ := hcond
          norm_num [boundaryAt, charAt] at hb
        · split at h
          · injection h with h'
            rw [Prod.mk.injEq] at h'
            exact absurd h'.1 (by norm_num)
          · split at h
            · injection h with h'
              rw [Prod.mk.injEq] at h'
              have h0q : (0 : ℚ) ≤ ((qw.length : ℚ) * 0.2) :=
                mul_nonneg (Nat.cast_nonneg _) (by norm_num)
              have h1 := h'.1
              linarith
            · split at h
              · injection h with h'
                rw [Prod.mk.injEq] at h'
                exact absurd h'.1 (by norm_num)
              · cases strat with
                | aggressive =>
                  unfold aggressiveFuzzyMatchL at h
                  have := aggressiveGo_score_ge_two nItem nQuery _ _ _ _ _ _ _ _ h
                  norm_num at this
                | smart =>
                  unfold smartFuzzyMatchL at h
                  have := smartGo_score_ge_two nItem nQuery _ _ _ _ _ _ h
                  norm_num at this
                | off => exact absurd h (by simp)

/-- C3 (counterexample): on item "ΑΣΒ" and query "ΑΣ" the exact-case search
finds the query at index 0 and no earlier tier applies — the strings differ,
their normalized forms differ and the normalized query is not a prefix of the
normalized item, because the Unicode Final_Sigma rule lowercases the query's
trailing `Σ` to `ς` but the item's medial `Σ` to `σ` — yet the exact-case
contains tier does not succeed with 0.9: the whole orchestrator returns
`none`, since the tier's boundary guard reads the nonexistent character
before index 0. -/
theorem C3_counterexample :
    indexOfSubInt ("ΑΣΒ".data) ("ΑΣ".data) = 0 ∧
      "ΑΣΒ".data ≠ "ΑΣ".data ∧
      normalizeTextL ("ΑΣΒ".data) ≠ normalizeTextL ("ΑΣ".data) ∧
      ¬((normalizeTextL ("ΑΣ".data)).isPrefixOf (normalizeTextL ("ΑΣΒ".data)) = true) ∧
      matchesFuzzilyL ("ΑΣΒ".data) (normalizeTextL ("ΑΣΒ".data))
        ((normalizeTextL ("ΑΣΒ".data)).splitOn ' ') ("ΑΣ".data)
        (normalizeTextL ("ΑΣ".data)) ((normalizeTextL ("ΑΣ".data)).splitOn ' ')
        .smart = none := by
  decide

/-- C3 (witness): the amended statement applied at item "ΑΣΒ", query "ΑΣ"
(where the exact-case search does find the query at index 0): the
orchestrator's result is not `(0.9, [(0, 1)])`. -/
theorem C3_witness :
    matchesFuzzilyL ("ΑΣΒ".data) (normalizeTextL ("ΑΣΒ".data))
      ((normalizeTextL ("ΑΣΒ".data)).splitOn ' ') ("ΑΣ".data)
      (normalizeTextL ("ΑΣ".data)) ((normalizeTextL ("ΑΣ".data)).splitOn ' ')
      .smart ≠ some (0.9, [((0 : Int), 1)]) :=
  C3_index_zero_never_scores_nine ("ΑΣΒ".data) (normalizeTextL ("ΑΣΒ".data))
    ((normalizeTextL ("ΑΣΒ".data)).splitOn ' ') ("ΑΣ".data)
    (normalizeTextL ("ΑΣ".data)) ((normalizeTextL ("ΑΣ".data)).splitOn ' ')
    .smart [((0 : Int), 1)] (by decide)

end Mikrofuzz
